import Mathlib

/-!
Verification of the bf-interpreter engine (src/bf_interpreter.rs).

The Rust code is shallowly embedded: `Token` mirrors the `Token` enum,
`parse_program` mirrors `BfInterpreter::parse_program`,
`find_matching_parens` mirrors `BfInterpreter::find_matching_parens`
(the `HashMap` is modelled as an association list whose `lookup` agrees
with the map, and the stack as a list of index/token pairs),
`BfInterpreter.new` mirrors `BfInterpreter::new`, `BfInterpreter.step`
mirrors `BfInterpreter::step` (returning the result together with the
post state, since the Rust method mutates `&mut self`), and
`BfInterpreter.set_input` mirrors `BfInterpreter::set_input`.
Cells are `Nat` values kept below 256; `wrapping_add(1)` on a `u8` is
`(c + 1) % 256` and `wrapping_sub(1)` is `(c + 255) % 256`.
-/

set_option maxHeartbeats 1000000

/-- Tokens of the interpreted language, mirroring the Rust `Token` enum. -/
inductive Token where
  | IncDataPtr
  | DecDataPtr
  | IncByte
  | DecByte
  | WriteByte
  | ReadByte
  | BeginLoop
  | EndLoop
  deriving DecidableEq, Repr

/-- Result of one `step` call, mirroring the Rust `Ret` enum (the output
byte is a `Nat` below 256). -/
inductive Ret where
  | Input
  | Output (b : Nat)
  | Continue
  | Finished
  deriving DecidableEq, Repr

/-- Byte-to-token mapping used by `parse_program`: each of the 8 recognized
ASCII bytes maps to its token; every other byte maps to `none`.  This is the
closure passed to `flat_map` in the Rust source. -/
def tokOf (b : Nat) : Option Token :=
  if b = 62 then some Token.IncDataPtr
  else if b = 60 then some Token.DecDataPtr
  else if b = 43 then some Token.IncByte
  else if b = 45 then some Token.DecByte
  else if b = 46 then some Token.WriteByte
  else if b = 44 then some Token.ReadByte
  else if b = 91 then some Token.BeginLoop
  else if b = 93 then some Token.EndLoop
  else none

/-- Tokenizer, mirroring `BfInterpreter::parse_program`: keep the tokens of
recognized bytes, silently drop everything else. -/
def parse_program (program : List Nat) : List Token :=
  program.filterMap tokOf

/-- Scanning loop of `BfInterpreter::find_matching_parens`: `rest` is the
unprocessed part of the program, `i` the index of its first token, `stack`
the pending loop-open entries (most recent first, as pushed by the Rust
`Vec`), `map` the bidirectional match entries inserted so far (most recent
insertion first; keys are only ever inserted once, so association-list
lookup agrees with the Rust `HashMap`). -/
def fmpGo : List Token → Nat → List (Nat × Token) → List (Nat × Nat) →
    Except String (List (Nat × Nat))
  | [], _, stack, map =>
      if stack.isEmpty then Except.ok map
      else Except.error "Missing \x27]\x27"
  | b :: rest, i, stack, map =>
      if b = Token.BeginLoop then
        fmpGo rest (i + 1) ((i, b) :: stack) map
      else if b = Token.EndLoop then
        match stack with
        | [] => Except.error "Missing \x27[\x27"
        | (matching_index, _) :: stack =>
            fmpGo rest (i + 1) stack ((matching_index, i) :: (i, matching_index) :: map)
      else
        fmpGo rest (i + 1) stack map

/-- Bracket matching, mirroring `BfInterpreter::find_matching_parens`. -/
def find_matching_parens (program : List Token) : Except String (List (Nat × Nat)) :=
  fmpGo program 0 [] []

/-- Engine state, mirroring the `BfInterpreter` struct. -/
structure BfInterpreter where
  pc : Nat
  data_ptr : Nat
  program : List Token
  cells : List Nat
  matching_parens : List (Nat × Nat)
  deriving DecidableEq, Repr

/-- Constructor, mirroring `BfInterpreter::new`: tokenize, build the bracket
map (propagating its error), then start with a zeroed 30000-cell tape and
both counters at 0. -/
def BfInterpreter.new (program : List Nat) : Except String BfInterpreter :=
  let prog := parse_program program
  match find_matching_parens prog with
  | Except.error e => Except.error e
  | Except.ok matching_parens =>
      Except.ok
        { pc := 0
          data_ptr := 0
          program := prog
          cells := List.replicate 30000 0
          matching_parens := matching_parens }

/-- One execution step, mirroring `BfInterpreter::step`.  The Rust method
mutates `&mut self` and returns `Result<Ret, String>`; here the post state
is returned alongside the result (on an error the state is the unchanged
input state, as in the Rust early returns). -/
def BfInterpreter.step (s : BfInterpreter) : Except String Ret × BfInterpreter :=
  if s.program.length ≤ s.pc then
    (Except.ok Ret.Finished, s)
  else
    match s.program.getD s.pc Token.IncDataPtr with
    | Token.IncDataPtr =>
        if s.data_ptr = s.cells.length - 1 then
          (Except.error "Memory overflow", s)
        else
          (Except.ok Ret.Continue, { s with data_ptr := s.data_ptr + 1, pc := s.pc + 1 })
    | Token.DecDataPtr =>
        if s.data_ptr = 0 then
          (Except.error "Memory underflow", s)
        else
          (Except.ok Ret.Continue, { s with data_ptr := s.data_ptr - 1, pc := s.pc + 1 })
    | Token.IncByte =>
        (Except.ok Ret.Continue,
          { s with
              cells := s.cells.set s.data_ptr ((s.cells.getD s.data_ptr 0 + 1) % 256)
              pc := s.pc + 1 })
    | Token.DecByte =>
        (Except.ok Ret.Continue,
          { s with
              cells := s.cells.set s.data_ptr ((s.cells.getD s.data_ptr 0 + 255) % 256)
              pc := s.pc + 1 })
    | Token.WriteByte =>
        (Except.ok (Ret.Output (s.cells.getD s.data_ptr 0)), { s with pc := s.pc + 1 })
    | Token.ReadByte =>
        (Except.ok Ret.Input, { s with pc := s.pc + 1 })
    | Token.BeginLoop =>
        if s.cells.getD s.data_ptr 0 = 0 then
          (Except.ok Ret.Continue, { s with pc := (s.matching_parens.lookup s.pc).getD 0 + 1 })
        else
          (Except.ok Ret.Continue, { s with pc := s.pc + 1 })
    | Token.EndLoop =>
        if s.cells.getD s.data_ptr 0 ≠ 0 then
          (Except.ok Ret.Continue, { s with pc := (s.matching_parens.lookup s.pc).getD 0 + 1 })
        else
          (Except.ok Ret.Continue, { s with pc := s.pc + 1 })

/-- Input supply, mirroring `BfInterpreter::set_input`: write the byte into
the cell at the current data pointer. -/
def BfInterpreter.set_input (s : BfInterpreter) (input : Nat) : BfInterpreter :=
  { s with cells := s.cells.set s.data_ptr (input % 256) }


deriving instance DecidableEq for Except

/-- Step equation for an engine whose counter is at or past the end. -/
theorem step_eq_finished (s : BfInterpreter) (hpc : s.program.length ≤ s.pc) :
    s.step = (Except.ok Ret.Finished, s) := by
  unfold BfInterpreter.step
  rw [if_pos hpc]

/-- Step equation at a move-right instruction. -/
theorem step_eq_incPtr (s : BfInterpreter) (hpc : s.pc < s.program.length)
    (htok : s.program.getD s.pc Token.IncDataPtr = Token.IncDataPtr) :
    s.step = if s.data_ptr = s.cells.length - 1
      then (Except.error "Memory overflow", s)
      else (Except.ok Ret.Continue, { s with data_ptr := s.data_ptr + 1, pc := s.pc + 1 }) := by
  unfold BfInterpreter.step
  rw [if_neg (Nat.not_le.mpr hpc), htok]

/-- Step equation at a move-left instruction. -/
theorem step_eq_decPtr (s : BfInterpreter) (hpc : s.pc < s.program.length)
    (htok : s.program.getD s.pc Token.IncDataPtr = Token.DecDataPtr) :
    s.step = if s.data_ptr = 0
      then (Except.error "Memory underflow", s)
      else (Except.ok Ret.Continue, { s with data_ptr := s.data_ptr - 1, pc := s.pc + 1 }) := by
  unfold BfInterpreter.step
  rw [if_neg (Nat.not_le.mpr hpc), htok]

/-- Step equation at an increment-cell instruction. -/
theorem step_eq_incByte (s : BfInterpreter) (hpc : s.pc < s.program.length)
    (htok : s.program.getD s.pc Token.IncDataPtr = Token.IncByte) :
    s.step = (Except.ok Ret.Continue,
      { s with
          cells := s.cells.set s.data_ptr ((s.cells.getD s.data_ptr 0 + 1) % 256)
          pc := s.pc + 1 }) := by
  unfold BfInterpreter.step
  rw [if_neg (Nat.not_le.mpr hpc), htok]

/-- Step equation at a decrement-cell instruction. -/
theorem step_eq_decByte (s : BfInterpreter) (hpc : s.pc < s.program.length)
    (htok : s.program.getD s.pc Token.IncDataPtr = Token.DecByte) :
    s.step = (Except.ok Ret.Continue,
      { s with
          cells := s.cells.set s.data_ptr ((s.cells.getD s.data_ptr 0 + 255) % 256)
          pc := s.pc + 1 }) := by
  unfold BfInterpreter.step
  rw [if_neg (Nat.not_le.mpr hpc), htok]

/-- Step equation at an output instruction. -/
theorem step_eq_write (s : BfInterpreter) (hpc : s.pc < s.program.length)
    (htok : s.program.getD s.pc Token.IncDataPtr = Token.WriteByte) :
    s.step = (Except.ok (Ret.Output (s.cells.getD s.data_ptr 0)), { s with pc := s.pc + 1 }) := by
  unfold BfInterpreter.step
  rw [if_neg (Nat.not_le.mpr hpc), htok]

/-- Step equation at an input instruction. -/
theorem step_eq_read (s : BfInterpreter) (hpc : s.pc < s.program.length)
    (htok : s.program.getD s.pc Token.IncDataPtr = Token.ReadByte) :
    s.step = (Except.ok Ret.Input, { s with pc := s.pc + 1 }) := by
  unfold BfInterpreter.step
  rw [if_neg (Nat.not_le.mpr hpc), htok]

/-- Step equation at a loop-open instruction. -/
theorem step_eq_begin (s : BfInterpreter) (hpc : s.pc < s.program.length)
    (htok : s.program.getD s.pc Token.IncDataPtr = Token.BeginLoop) :
    s.step = if s.cells.getD s.data_ptr 0 = 0
      then (Except.ok Ret.Continue, { s with pc := (s.matching_parens.lookup s.pc).getD 0 + 1 })
      else (Except.ok Ret.Continue, { s with pc := s.pc + 1 }) := by
  unfold BfInterpreter.step
  rw [if_neg (Nat.not_le.mpr hpc), htok]

/-- Step equation at a loop-close instruction. -/
theorem step_eq_end (s : BfInterpreter) (hpc : s.pc < s.program.length)
    (htok : s.program.getD s.pc Token.IncDataPtr = Token.EndLoop) :
    s.step = if s.cells.getD s.data_ptr 0 ≠ 0
      then (Except.ok Ret.Continue, { s with pc := (s.matching_parens.lookup s.pc).getD 0 + 1 })
      else (Except.ok Ret.Continue, { s with pc := s.pc + 1 }) := by
  unfold BfInterpreter.step
  rw [if_neg (Nat.not_le.mpr hpc), htok]

/-- Engine used by the witness of the loop-jump claim. -/
def c1E : BfInterpreter :=
  { pc := 0, data_ptr := 0, program := [Token.BeginLoop, Token.EndLoop],
    cells := [0], matching_parens := [(0, 1), (1, 0)] }

/-- Engine used by the witness of the pointer-move claim. -/
def c4E : BfInterpreter :=
  { pc := 0, data_ptr := 0, program := [Token.DecDataPtr],
    cells := List.replicate 30000 0, matching_parens := [] }

/-- Engine used by the witness of the cell-arithmetic claim. -/
def c8E : BfInterpreter :=
  { pc := 0, data_ptr := 0, program := [Token.IncByte],
    cells := [255], matching_parens := [] }

/-- Engine used by the witness of the finished-idempotence claim. -/
def c9E : BfInterpreter :=
  { pc := 0, data_ptr := 0, program := [], cells := [], matching_parens := [] }

/-- Engine used by the witness of the error-atomicity claim. -/
def c10E : BfInterpreter :=
  { pc := 0, data_ptr := 0, program := [Token.DecDataPtr],
    cells := [0], matching_parens := [] }

/-- C1: for a running engine whose current instruction is loop-open, `step`
jumps `pc` to `bracket_map[pc] + 1` when the current cell is 0 and otherwise
sets `pc := pc + 1`; for loop-close it jumps when the cell is nonzero and
otherwise sets `pc := pc + 1`; in all four cases it returns `Continue`
without error and leaves the tape and the data pointer unchanged. -/
theorem bf_step_loop_jump (s : BfInterpreter) (m : Nat)
    (hpc : s.pc < s.program.length)
    (hm : s.matching_parens.lookup s.pc = some m) :
    (s.program.getD s.pc Token.IncDataPtr = Token.BeginLoop →
      s.step = if s.cells.getD s.data_ptr 0 = 0
        then (Except.ok Ret.Continue, { s with pc := m + 1 })
        else (Except.ok Ret.Continue, { s with pc := s.pc + 1 })) ∧
    (s.program.getD s.pc Token.IncDataPtr = Token.EndLoop →
      s.step = if s.cells.getD s.data_ptr 0 ≠ 0
        then (Except.ok Ret.Continue, { s with pc := m + 1 })
        else (Except.ok Ret.Continue, { s with pc := s.pc + 1 })) := by
  constructor <;> intro htok
  · rw [step_eq_begin s hpc htok, hm]; rfl
  · rw [step_eq_end s hpc htok, hm]; rfl

theorem bf_step_loop_jump_witness :
    c1E.pc < c1E.program.length ∧
    c1E.matching_parens.lookup c1E.pc = some 1 ∧
    c1E.step = (Except.ok Ret.Continue, { c1E with pc := 2 }) := by
  refine ⟨by decide, by decide, ?_⟩
  have h := (bf_step_loop_jump c1E 1 (by decide) (by decide)).1 (by decide)
  rw [h]; rfl

/-- C4: for a running engine at a move-left instruction, `step` fails with
the tape-underflow error exactly when the data pointer is 0 (leaving the
state unchanged, no clamping) and otherwise decrements it and advances
`pc`; at a move-right instruction it fails with the tape-overflow error
exactly when the data pointer is the last valid index 29999 and otherwise
increments it and advances `pc`. -/
theorem bf_step_move_bounds (s : BfInterpreter)
    (hpc : s.pc < s.program.length) (hlen : s.cells.length = 30000) :
    (s.program.getD s.pc Token.IncDataPtr = Token.DecDataPtr →
      (s.data_ptr = 0 → s.step = (Except.error "Memory underflow", s)) ∧
      (s.data_ptr ≠ 0 →
        s.step = (Except.ok Ret.Continue, { s with data_ptr := s.data_ptr - 1, pc := s.pc + 1 }))) ∧
    (s.program.getD s.pc Token.IncDataPtr = Token.IncDataPtr →
      (s.data_ptr = 29999 → s.step = (Except.error "Memory overflow", s)) ∧
      (s.data_ptr ≠ 29999 →
        s.step = (Except.ok Ret.Continue, { s with data_ptr := s.data_ptr + 1, pc := s.pc + 1 }))) := by
  constructor <;> intro htok
  · rw [step_eq_decPtr s hpc htok]
    constructor <;> intro hd
    · rw [if_pos hd]
    · rw [if_neg hd]
  · rw [step_eq_incPtr s hpc htok, hlen]
    constructor <;> intro hd
    · rw [if_pos (show s.data_ptr = 30000 - 1 from by omega)]
    · rw [if_neg (show ¬ s.data_ptr = 30000 - 1 from by omega)]

theorem bf_step_move_bounds_witness :
    c4E.pc < c4E.program.length ∧ c4E.cells.length = 30000 ∧
    c4E.step = (Except.error "Memory underflow", c4E) := by
  refine ⟨by decide, by simp only [c4E, List.length_replicate], ?_⟩
  exact ((bf_step_move_bounds c4E (by decide)
    (by simp only [c4E, List.length_replicate])).1 (by decide)).1 rfl

/-- C8: for a running engine at increment-cell, `step` replaces the current
cell value c by (c + 1) % 256, and at decrement-cell by (c + 255) % 256
(u8 wrapping), advancing `pc` by 1, never failing and changing no other
cell; in particular 255 increments to 0 and 0 decrements to 255. -/
theorem bf_step_arith_wrap (s : BfInterpreter) (hpc : s.pc < s.program.length) :
    (s.program.getD s.pc Token.IncDataPtr = Token.IncByte →
      s.step = (Except.ok Ret.Continue,
        { s with
            cells := s.cells.set s.data_ptr ((s.cells.getD s.data_ptr 0 + 1) % 256)
            pc := s.pc + 1 })) ∧
    (s.program.getD s.pc Token.IncDataPtr = Token.DecByte →
      s.step = (Except.ok Ret.Continue,
        { s with
            cells := s.cells.set s.data_ptr ((s.cells.getD s.data_ptr 0 + 255) % 256)
            pc := s.pc + 1 })) ∧
    (255 + 1) % 256 = 0 ∧ (0 + 255) % 256 = 255 :=
  ⟨fun htok => step_eq_incByte s hpc htok,
   fun htok => step_eq_decByte s hpc htok,
   by decide, by decide⟩

theorem bf_step_arith_wrap_witness :
    c8E.pc < c8E.program.length ∧
    c8E.step = (Except.ok Ret.Continue, { c8E with cells := [0], pc := 1 }) := by
  refine ⟨by decide, ?_⟩
  have h := (bf_step_arith_wrap c8E (by decide)).1 (by decide)
  rw [h]; rfl

/-- C9: for an engine whose `pc` is at or past the program's end, `step`
returns `Finished` without error and leaves the whole state unchanged, so
a further `step` call again returns `Finished`: the finished state is an
idempotent terminal state. -/
theorem bf_step_finished_idempotent (s : BfInterpreter) (hpc : s.program.length ≤ s.pc) :
    s.step = (Except.ok Ret.Finished, s) ∧
    (s.step).2.step = (Except.ok Ret.Finished, (s.step).2) := by
  have h := step_eq_finished s hpc
  exact ⟨h, by rw [h]; exact h⟩

theorem bf_step_finished_idempotent_witness :
    c9E.program.length ≤ c9E.pc ∧
    (c9E.step = (Except.ok Ret.Finished, c9E) ∧
      (c9E.step).2.step = (Except.ok Ret.Finished, (c9E.step).2)) :=
  ⟨by decide, bf_step_finished_idempotent c9E (by decide)⟩

/-- C10: `step` is atomic on error: whenever it returns an error, the
post state is exactly the pre state (program counter, data pointer and
every tape cell unchanged). -/
theorem bf_step_error_atomic (s : BfInterpreter) (e : String)
    (h : (s.step).1 = Except.error e) : (s.step).2 = s := by
  by_cases h1 : s.program.length ≤ s.pc
  · rw [step_eq_finished s h1] at h
    exact absurd h (by simp)
  · have hpc : s.pc < s.program.length := Nat.lt_of_not_le h1
    cases htok : s.program.getD s.pc Token.IncDataPtr
    · rw [step_eq_incPtr s hpc htok] at h ⊢
      by_cases hc : s.data_ptr = s.cells.length - 1
      · rw [if_pos hc]
      · rw [if_neg hc] at h
        exact absurd h (by simp)
    · rw [step_eq_decPtr s hpc htok] at h ⊢
      by_cases hc : s.data_ptr = 0
      · rw [if_pos hc]
      · rw [if_neg hc] at h
        exact absurd h (by simp)
    · rw [step_eq_incByte s hpc htok] at h
      exact absurd h (by simp)
    · rw [step_eq_decByte s hpc htok] at h
      exact absurd h (by simp)
    · rw [step_eq_write s hpc htok] at h
      exact absurd h (by simp)
    · rw [step_eq_read s hpc htok] at h
      exact absurd h (by simp)
    · rw [step_eq_begin s hpc htok] at h
      by_cases hc : s.cells.getD s.data_ptr 0 = 0
      · rw [if_pos hc] at h
        exact absurd h (by simp)
      · rw [if_neg hc] at h
        exact absurd h (by simp)
    · rw [step_eq_end s hpc htok] at h
      by_cases hc : s.cells.getD s.data_ptr 0 ≠ 0
      · rw [if_pos hc] at h
        exact absurd h (by simp)
      · rw [if_neg hc] at h
        exact absurd h (by simp)

theorem bf_step_error_atomic_witness :
    (c10E.step).1 = Except.error "Memory underflow" ∧ (c10E.step).2 = c10E :=
  ⟨by decide, bf_step_error_atomic c10E "Memory underflow" (by decide)⟩

/-- Helper: a `filterMap` is the map of the total function over the kept
elements. -/
theorem filterMap_eq_map_filter {α β : Type} (f : α → Option β) (d : β) :
    ∀ l : List α,
      l.filterMap f = (l.filter (fun b => (f b).isSome)).map (fun b => (f b).getD d)
  | [] => rfl
  | a :: l => by
    cases hf : f a <;>
      simp [List.filterMap_cons, hf, List.filter_cons, filterMap_eq_map_filter f d l]

/-- C7: tokenization never lengthens the input, equals the map of the
byte-to-token function over the sublist of recognized bytes of the input
(so order is preserved and nothing is inserted or reordered, and every
unrecognized byte is silently dropped), and exactly the 8 bytes of
the characters of the language are recognized. -/
theorem bf_tokenize_subsequence (l : List Nat) :
    (parse_program l).length ≤ l.length ∧
    parse_program l =
      (l.filter (fun b => (tokOf b).isSome)).map (fun b => (tokOf b).getD Token.IncDataPtr) ∧
    (l.filter (fun b => (tokOf b).isSome)).Sublist l ∧
    (∀ b, (tokOf b).isSome ↔ b ∈ ([62, 60, 43, 45, 46, 44, 91, 93] : List Nat)) := by
  refine ⟨List.length_filterMap_le tokOf l, filterMap_eq_map_filter tokOf Token.IncDataPtr l,
    List.filter_sublist l, ?_⟩
  intro b
  simp only [tokOf, List.mem_cons, List.not_mem_nil, or_false]
  split_ifs with h1 h2 h3 h4 h5 h6 h7 h8 <;> simp_all

/-- Number of loop-open tokens in a list. -/
def count_open (l : List Token) : Nat := l.countP (fun t => decide (t = Token.BeginLoop))

/-- Number of loop-close tokens in a list. -/
def count_close (l : List Token) : Nat := l.countP (fun t => decide (t = Token.EndLoop))

/-- Tokens of `l` strictly between positions `a` and `k` (positions
`a + 1` to `k - 1`). -/
def seg (l : List Token) (a k : Nat) : List Token := (l.take k).drop (a + 1)

/-- Specification-side pairing predicate, following the spec text for the
bracket-map refinement claim: `j` is the match of the loop-open at `i` when
it is the syntactically nearest unmatched loop-close to the right of `i`
under strict LIFO nesting — the first close after `i` whose
strictly-between segment closes exactly as many loops as it opens. -/
def IsLifoMatch (l : List Token) (i j : Nat) : Prop :=
  i < j ∧ j < l.length ∧
  l.getD i Token.IncDataPtr = Token.BeginLoop ∧
  l.getD j Token.IncDataPtr = Token.EndLoop ∧
  count_close (seg l i j) = count_open (seg l i j) ∧
  ∀ k, i < k → k < j → l.getD k Token.IncDataPtr = Token.EndLoop →
    count_close (seg l i k) ≠ count_open (seg l i k)

/-- Specification-side balance predicate, following the spec text: no
prefix closes more loops than it opens and the whole program closes
exactly as many loops as it opens. -/
def BalancedTok (l : List Token) : Prop :=
  (∀ k, k ≤ l.length → count_close (l.take k) ≤ count_open (l.take k)) ∧
  count_close l = count_open l

theorem seg_full (l : List Token) (a : Nat) : seg l a l.length = l.drop (a + 1) := by
  unfold seg
  rw [List.take_length]

theorem seg_snoc_lt (d : List Token) (b : Token) (a k : Nat) (hk : k ≤ d.length) :
    seg (d ++ [b]) a k = seg d a k := by
  unfold seg
  rw [List.take_append_of_le_length hk]

theorem seg_snoc_full (d : List Token) (b : Token) (a : Nat) (ha : a < d.length) :
    seg (d ++ [b]) a (d.length + 1) = seg d a d.length ++ [b] := by
  unfold seg
  rw [List.take_of_length_le (by simp), List.take_length,
    List.drop_append_of_le_length ha]

theorem getD_snoc_lt (d : List Token) (b : Token) (k : Nat) (hk : k < d.length) :
    (d ++ [b]).getD k Token.IncDataPtr = d.getD k Token.IncDataPtr :=
  List.getD_append d [b] Token.IncDataPtr k hk

theorem getD_snoc_self (d : List Token) (b : Token) :
    (d ++ [b]).getD d.length Token.IncDataPtr = b := by
  simp [List.getD_eq_getElem?_getD, List.getElem?_concat_length]

theorem count_open_snoc (d : List Token) (b : Token) :
    count_open (d ++ [b]) = count_open d + (if b = Token.BeginLoop then 1 else 0) := by
  simp [count_open, List.countP_append, List.countP_cons]

theorem count_close_snoc (d : List Token) (b : Token) :
    count_close (d ++ [b]) = count_close d + (if b = Token.EndLoop then 1 else 0) := by
  simp [count_close, List.countP_append, List.countP_cons]

theorem lookup_cons_nat {b : Type} (k a : Nat) (v : b) (es : List (Nat × b)) :
    ((k, v) :: es).lookup a = if a = k then some v else es.lookup a := by
  rw [List.lookup_cons]
  by_cases h : a = k
  · simp [h]
  · have hb : (a == k) = false := by
      cases hbeq : a == k
      · rfl
      · exact absurd (eq_of_beq hbeq) h
    simp [hb, h]

theorem seg_snoc_self (d : List Token) (c : Token) :
    seg (d ++ [c]) d.length (d.length + 1) = [] := by
  unfold seg
  rw [List.take_of_length_le (by simp)]
  exact List.drop_of_length_le (by simp)

/-- Appending a token on the right preserves a LIFO match (all of its
positions lie inside the original list). -/
theorem isLifoMatch_snoc (d : List Token) (c : Token) (i j : Nat)
    (h : IsLifoMatch d i j) : IsLifoMatch (d ++ [c]) i j := by
  obtain ⟨hij, hjl, hopen, hclose, hcnt, hmin⟩ := h
  refine ⟨hij, by simp; omega, ?_, ?_, ?_, ?_⟩
  · rw [getD_snoc_lt d c i (Nat.lt_trans hij hjl)]; exact hopen
  · rw [getD_snoc_lt d c j hjl]; exact hclose
  · rw [seg_snoc_lt d c i j (Nat.le_of_lt hjl)]; exact hcnt
  · intro k hik hkj hke
    rw [getD_snoc_lt d c k (Nat.lt_trans hkj hjl)] at hke
    rw [seg_snoc_lt d c i k (Nat.le_of_lt (Nat.lt_trans hkj hjl))]
    exact hmin k hik hkj hke

/-- Invariant of the bracket-matching scan after processing the tokens of
`done`: `st` is the list of pending (unmatched-so-far) loop-open indices,
most recent first, and `mp` holds the bidirectional entries of the pairs
matched so far. -/
structure ScanInv (done : List Token) (st : List Nat) (mp : List (Nat × Nat)) : Prop where
  st_lt : ∀ a ∈ st, a < done.length
  st_open : ∀ a ∈ st, done.getD a Token.IncDataPtr = Token.BeginLoop
  st_depth : ∀ m a, st[m]? = some a →
    count_open (seg done a done.length) = count_close (seg done a done.length) + m
  st_nocand : ∀ a ∈ st, ∀ k, a < k → k < done.length →
    done.getD k Token.IncDataPtr = Token.EndLoop →
    count_close (seg done a k) ≠ count_open (seg done a k)
  count_bal : count_open done = count_close done + st.length
  mp_sym : ∀ i j, mp.lookup i = some j → mp.lookup j = some i
  mp_dom_lt : ∀ i, (mp.lookup i).isSome → i < done.length
  mp_dom_loop : ∀ i, (mp.lookup i).isSome →
    done.getD i Token.IncDataPtr = Token.BeginLoop ∨
    done.getD i Token.IncDataPtr = Token.EndLoop
  mp_not_st : ∀ i, (mp.lookup i).isSome → i ∉ st
  mp_total : ∀ i, i < done.length →
    (done.getD i Token.IncDataPtr = Token.BeginLoop ∨
     done.getD i Token.IncDataPtr = Token.EndLoop) →
    i ∉ st → (mp.lookup i).isSome
  mp_lifo : ∀ i j, mp.lookup i = some j →
    done.getD i Token.IncDataPtr = Token.BeginLoop → IsLifoMatch done i j

theorem scanInv_nil : ScanInv [] [] [] := by
  constructor <;> simp [List.lookup, count_open, count_close]

/-- Processing a loop-open pushes its index and preserves the scan
invariant. -/
theorem scanInv_push (done : List Token) (st : List Nat) (mp : List (Nat × Nat))
    (h : ScanInv done st mp) :
    ScanInv (done ++ [Token.BeginLoop]) (done.length :: st) mp := by
  have hlen : (done ++ [Token.BeginLoop]).length = done.length + 1 := by simp
  constructor
  case st_lt =>
    intro a ha
    rw [hlen]
    rcases List.mem_cons.mp ha with rfl | ha
    · omega
    · exact Nat.lt_trans (h.st_lt a ha) (Nat.lt_succ_self _)
  case st_open =>
    intro a ha
    rcases List.mem_cons.mp ha with rfl | ha
    · rw [getD_snoc_self]
    · rw [getD_snoc_lt done _ a (h.st_lt a ha)]
      exact h.st_open a ha
  case st_depth =>
    intro m a hma
    rw [hlen]
    cases m with
    | zero =>
      simp only [List.getElem?_cons_zero, Option.some.injEq] at hma
      subst hma
      rw [seg_snoc_self]
      simp [count_open, count_close]
    | succ m =>
      simp only [List.getElem?_cons_succ] at hma
      have ha_lt := h.st_lt a (List.mem_iff_getElem?.mpr ⟨m, hma⟩)
      rw [seg_snoc_full done _ a ha_lt, count_open_snoc, count_close_snoc]
      have := h.st_depth m a hma
      simp only [if_pos rfl]
      simp
      omega
  case st_nocand =>
    intro a ha k hak hk hke
    rw [hlen] at hk
    rcases List.mem_cons.mp ha with rfl | ha
    · omega
    · have ha_lt := h.st_lt a ha
      rcases Nat.lt_or_ge k done.length with hk2 | hk2
      · rw [getD_snoc_lt done _ k hk2] at hke
        rw [seg_snoc_lt done _ a k (Nat.le_of_lt hk2)]
        exact h.st_nocand a ha k hak hk2 hke
      · have hkd : k = done.length := by omega
        subst hkd
        rw [getD_snoc_self] at hke
        simp at hke
  case count_bal =>
    rw [count_open_snoc, count_close_snoc]
    have := h.count_bal
    simp only [List.length_cons]
    simp
    omega
  case mp_sym => exact h.mp_sym
  case mp_dom_lt =>
    intro i hi
    rw [hlen]
    exact Nat.lt_trans (h.mp_dom_lt i hi) (Nat.lt_succ_self _)
  case mp_dom_loop =>
    intro i hi
    rw [getD_snoc_lt done _ i (h.mp_dom_lt i hi)]
    exact h.mp_dom_loop i hi
  case mp_not_st =>
    intro i hi hmem
    have hlt := h.mp_dom_lt i hi
    rcases List.mem_cons.mp hmem with rfl | hmem
    · omega
    · exact h.mp_not_st i hi hmem
  case mp_total =>
    intro i hilen hloop hnotst
    rw [hlen] at hilen
    have hne : i ≠ done.length := fun hh => hnotst (hh ▸ List.mem_cons_self _ _)
    have hilt : i < done.length := by omega
    rw [getD_snoc_lt done _ i hilt] at hloop
    exact h.mp_total i hilt hloop (fun hm => hnotst (List.mem_cons_of_mem _ hm))
  case mp_lifo =>
    intro i j hij hopen
    have hilt := h.mp_dom_lt i (by rw [hij]; rfl)
    rw [getD_snoc_lt done _ i hilt] at hopen
    exact isLifoMatch_snoc done _ i j (h.mp_lifo i j hij hopen)

/-- Processing a non-loop token preserves the scan invariant unchanged. -/
theorem scanInv_other (done : List Token) (st : List Nat) (mp : List (Nat × Nat))
    (b : Token) (hb1 : b ≠ Token.BeginLoop) (hb2 : b ≠ Token.EndLoop)
    (h : ScanInv done st mp) :
    ScanInv (done ++ [b]) st mp := by
  have hlen : (done ++ [b]).length = done.length + 1 := by simp
  constructor
  case st_lt =>
    intro a ha
    rw [hlen]
    exact Nat.lt_trans (h.st_lt a ha) (Nat.lt_succ_self _)
  case st_open =>
    intro a ha
    rw [getD_snoc_lt done _ a (h.st_lt a ha)]
    exact h.st_open a ha
  case st_depth =>
    intro m a hma
    rw [hlen]
    have ha_lt := h.st_lt a (List.mem_iff_getElem?.mpr ⟨m, hma⟩)
    rw [seg_snoc_full done _ a ha_lt, count_open_snoc, count_close_snoc]
    have := h.st_depth m a hma
    rw [if_neg hb1, if_neg hb2]
    omega
  case st_nocand =>
    intro a ha k hak hk hke
    rw [hlen] at hk
    have ha_lt := h.st_lt a ha
    rcases Nat.lt_or_ge k done.length with hk2 | hk2
    · rw [getD_snoc_lt done _ k hk2] at hke
      rw [seg_snoc_lt done _ a k (Nat.le_of_lt hk2)]
      exact h.st_nocand a ha k hak hk2 hke
    · have hkd : k = done.length := by omega
      subst hkd
      rw [getD_snoc_self] at hke
      exact absurd hke hb2
  case count_bal =>
    rw [count_open_snoc, count_close_snoc, if_neg hb1, if_neg hb2]
    have := h.count_bal
    omega
  case mp_sym => exact h.mp_sym
  case mp_dom_lt =>
    intro i hi
    rw [hlen]
    exact Nat.lt_trans (h.mp_dom_lt i hi) (Nat.lt_succ_self _)
  case mp_dom_loop =>
    intro i hi
    rw [getD_snoc_lt done _ i (h.mp_dom_lt i hi)]
    exact h.mp_dom_loop i hi
  case mp_not_st =>
    intro i hi hmem
    exact h.mp_not_st i hi hmem
  case mp_total =>
    intro i hilen hloop hnotst
    rw [hlen] at hilen
    by_cases hne : i = done.length
    · subst hne
      rw [getD_snoc_self] at hloop
      rcases hloop with hh | hh
      · exact absurd hh hb1
      · exact absurd hh hb2
    · have hilt : i < done.length := by omega
      rw [getD_snoc_lt done _ i hilt] at hloop
      exact h.mp_total i hilt hloop hnotst
  case mp_lifo =>
    intro i j hij hopen
    have hilt := h.mp_dom_lt i (by rw [hij]; rfl)
    rw [getD_snoc_lt done _ i hilt] at hopen
    exact isLifoMatch_snoc done _ i j (h.mp_lifo i j hij hopen)

/-- Processing a loop-close pops the most recent pending open and records
the bidirectional pair, preserving the scan invariant. -/
theorem scanInv_pop (done : List Token) (a : Nat) (st : List Nat) (mp : List (Nat × Nat))
    (h : ScanInv done (a :: st) mp) :
    ScanInv (done ++ [Token.EndLoop]) st
      ((a, done.length) :: (done.length, a) :: mp) := by
  have hlen : (done ++ [Token.EndLoop]).length = done.length + 1 := by simp
  have ha_lt : a < done.length := h.st_lt a (List.mem_cons_self a st)
  have ha_open : done.getD a Token.IncDataPtr = Token.BeginLoop :=
    h.st_open a (List.mem_cons_self a st)
  have ha_depth0 : count_open (seg done a done.length) = count_close (seg done a done.length) := by
    have := h.st_depth 0 a (by simp)
    omega
  have a_not_st : a ∉ st := by
    intro hmem
    obtain ⟨m, hm⟩ := List.mem_iff_getElem?.mp hmem
    have := h.st_depth (m + 1) a (by simpa using hm)
    omega
  have len_not_st : done.length ∉ st := fun hmem =>
    absurd (h.st_lt done.length (List.mem_cons_of_mem a hmem)) (Nat.lt_irrefl _)
  have hl : ∀ x, ((a, done.length) :: (done.length, a) :: mp).lookup x =
      if x = a then some done.length
      else if x = done.length then some a else mp.lookup x := by
    intro x
    rw [lookup_cons_nat, lookup_cons_nat]
  constructor
  case st_lt =>
    intro a1 ha1
    rw [hlen]
    exact Nat.lt_trans (h.st_lt a1 (List.mem_cons_of_mem a ha1)) (Nat.lt_succ_self _)
  case st_open =>
    intro a1 ha1
    rw [getD_snoc_lt done _ a1 (h.st_lt a1 (List.mem_cons_of_mem a ha1))]
    exact h.st_open a1 (List.mem_cons_of_mem a ha1)
  case st_depth =>
    intro m a1 hma
    rw [hlen]
    have ha1_mem : a1 ∈ st := List.mem_iff_getElem?.mpr ⟨m, hma⟩
    have ha1_lt := h.st_lt a1 (List.mem_cons_of_mem a ha1_mem)
    rw [seg_snoc_full done _ a1 ha1_lt, count_open_snoc, count_close_snoc]
    have := h.st_depth (m + 1) a1 (by simpa using hma)
    simp only [if_pos rfl]
    simp
    omega
  case st_nocand =>
    intro a1 ha1 k hak hk hke
    rw [hlen] at hk
    have ha1_lt := h.st_lt a1 (List.mem_cons_of_mem a ha1)
    rcases Nat.lt_or_ge k done.length with hk2 | hk2
    · rw [getD_snoc_lt done _ k hk2] at hke
      rw [seg_snoc_lt done _ a1 k (Nat.le_of_lt hk2)]
      exact h.st_nocand a1 (List.mem_cons_of_mem a ha1) k hak hk2 hke
    · have hkd : k = done.length := by omega
      subst hkd
      rw [seg_snoc_lt done _ a1 done.length (Nat.le_refl _)]
      obtain ⟨m, hm⟩ := List.mem_iff_getElem?.mp ha1
      have := h.st_depth (m + 1) a1 (by simpa using hm)
      omega
  case count_bal =>
    rw [count_open_snoc, count_close_snoc]
    have := h.count_bal
    simp only [List.length_cons] at this
    simp
    omega
  case mp_sym =>
    intro i j hij
    rw [hl] at hij
    rw [hl]
    by_cases hia : i = a
    · subst hia
      rw [if_pos rfl] at hij
      injection hij with hj
      subst hj
      rw [if_neg (Ne.symm (Nat.ne_of_lt ha_lt)), if_pos rfl]
    · rw [if_neg hia] at hij
      by_cases hil : i = done.length
      · subst hil
        rw [if_pos rfl] at hij
        injection hij with hj
        subst hj
        rw [if_pos rfl]
      · rw [if_neg hil] at hij
        have hsym := h.mp_sym i j hij
        have hjs : (mp.lookup j).isSome := by rw [hsym]; rfl
        have hja : j ≠ a := fun hh =>
          (h.mp_not_st j hjs) (hh ▸ List.mem_cons_self a st)
        have hjl : j ≠ done.length := Nat.ne_of_lt (h.mp_dom_lt j hjs)
        rw [if_neg hja, if_neg hjl]
        exact hsym
  case mp_dom_lt =>
    intro i hi
    rw [hl] at hi
    rw [hlen]
    by_cases hia : i = a
    · omega
    · rw [if_neg hia] at hi
      by_cases hil : i = done.length
      · omega
      · rw [if_neg hil] at hi
        exact Nat.lt_trans (h.mp_dom_lt i hi) (Nat.lt_succ_self _)
  case mp_dom_loop =>
    intro i hi
    rw [hl] at hi
    by_cases hia : i = a
    · subst hia
      rw [getD_snoc_lt done _ i ha_lt]
      exact Or.inl ha_open
    · rw [if_neg hia] at hi
      by_cases hil : i = done.length
      · subst hil
        rw [getD_snoc_self]
        exact Or.inr rfl
      · rw [if_neg hil] at hi
        rw [getD_snoc_lt done _ i (h.mp_dom_lt i hi)]
        exact h.mp_dom_loop i hi
  case mp_not_st =>
    intro i hi
    rw [hl] at hi
    by_cases hia : i = a
    · subst hia
      exact a_not_st
    · rw [if_neg hia] at hi
      by_cases hil : i = done.length
      · subst hil
        exact len_not_st
      · rw [if_neg hil] at hi
        intro hmem
        exact h.mp_not_st i hi (List.mem_cons_of_mem a hmem)
  case mp_total =>
    intro i hilen hloop hnotst
    rw [hlen] at hilen
    rw [hl]
    by_cases hia : i = a
    · rw [if_pos hia]; rfl
    · rw [if_neg hia]
      by_cases hil : i = done.length
      · rw [if_pos hil]; rfl
      · rw [if_neg hil]
        have hilt : i < done.length := by omega
        rw [getD_snoc_lt done _ i hilt] at hloop
        refine h.mp_total i hilt hloop ?_
        intro hmem
        rcases List.mem_cons.mp hmem with hh | hh
        · exact hia hh
        · exact hnotst hh
  case mp_lifo =>
    intro i j hij hopen
    rw [hl] at hij
    by_cases hia : i = a
    · subst hia
      rw [if_pos rfl] at hij
      injection hij with hj
      subst hj
      refine ⟨ha_lt, by rw [hlen]; omega, hopen, getD_snoc_self done _, ?_, ?_⟩
      · rw [seg_snoc_lt done _ i done.length (Nat.le_refl _)]
        omega
      · intro k hik hkl hke
        rw [getD_snoc_lt done _ k hkl] at hke
        rw [seg_snoc_lt done _ i k (Nat.le_of_lt hkl)]
        exact h.st_nocand i (List.mem_cons_self i st) k hik hkl hke
    · rw [if_neg hia] at hij
      by_cases hil : i = done.length
      · subst hil
        rw [getD_snoc_self] at hopen
        simp at hopen
      · rw [if_neg hil] at hij
        have hilt := h.mp_dom_lt i (by rw [hij]; rfl)
        rw [getD_snoc_lt done _ i hilt] at hopen
        exact isLifoMatch_snoc done _ i j (h.mp_lifo i j hij hopen)

/-- Main scan induction: if the scan succeeds from an invariant state, the
final map satisfies the invariant for the whole program with an empty
stack. -/
theorem fmpGo_ok_inv : ∀ (rest done : List Token) (st : List (Nat × Token)) (mp m : List (Nat × Nat)),
    ScanInv done (st.map Prod.fst) mp →
    fmpGo rest done.length st mp = Except.ok m →
    ScanInv (done ++ rest) [] m
  | [], done, st, mp, m, hinv, hok => by
    unfold fmpGo at hok
    cases st with
    | nil =>
      simp at hok
      subst hok
      simpa using hinv
    | cons p st =>
      simp at hok
  | b :: rest, done, st, mp, m, hinv, hok => by
    unfold fmpGo at hok
    by_cases hb1 : b = Token.BeginLoop
    · subst hb1
      rw [if_pos rfl] at hok
      rw [show done.length + 1 = (done ++ [Token.BeginLoop]).length from by simp] at hok
      have hrec := fmpGo_ok_inv rest (done ++ [Token.BeginLoop])
        ((done.length, Token.BeginLoop) :: st) mp m
        (by simpa using scanInv_push done (st.map Prod.fst) mp hinv) hok
      rwa [List.append_assoc] at hrec
    · rw [if_neg hb1] at hok
      by_cases hb2 : b = Token.EndLoop
      · subst hb2
        rw [if_pos rfl] at hok
        cases st with
        | nil => simp at hok
        | cons p st =>
          obtain ⟨a, t⟩ := p
          rw [show done.length + 1 = (done ++ [Token.EndLoop]).length from by simp] at hok
          have hrec := fmpGo_ok_inv rest (done ++ [Token.EndLoop]) st
            ((a, done.length) :: (done.length, a) :: mp) m
            (scanInv_pop done a (st.map Prod.fst) mp (by simpa using hinv)) hok
          rwa [List.append_assoc] at hrec
      · rw [if_neg hb2] at hok
        rw [show done.length + 1 = (done ++ [b]).length from by simp] at hok
        have hrec := fmpGo_ok_inv rest (done ++ [b]) st mp m
          (scanInv_other done (st.map Prod.fst) mp b hb1 hb2 hinv) hok
        rwa [List.append_assoc] at hrec

theorem take_append_cons (d : List Token) (b : Token) (r : List Token) :
    (d ++ b :: r).take (d.length + 1) = d ++ [b] := by
  rw [show d ++ b :: r = (d ++ [b]) ++ r from by simp,
    List.take_append_of_le_length (by simp)]
  exact List.take_of_length_le (by simp)

/-- On balanced input the scan always succeeds. -/
theorem fmpGo_ok_of_balanced : ∀ (rest done : List Token) (st : List (Nat × Token)) (mp : List (Nat × Nat)),
    count_open done = count_close done + st.length →
    (∀ k, k ≤ (done ++ rest).length →
      count_close ((done ++ rest).take k) ≤ count_open ((done ++ rest).take k)) →
    count_close (done ++ rest) = count_open (done ++ rest) →
    ∃ m, fmpGo rest done.length st mp = Except.ok m
  | [], done, st, mp, hbal, hpre, htot => by
    simp only [List.append_nil] at htot
    have hst : st = [] := List.length_eq_zero.mp (by omega)
    subst hst
    exact ⟨mp, by unfold fmpGo; rfl⟩
  | b :: rest, done, st, mp, hbal, hpre, htot => by
    have happ : done ++ b :: rest = (done ++ [b]) ++ rest := by simp
    rw [happ] at hpre htot
    unfold fmpGo
    by_cases hb1 : b = Token.BeginLoop
    · subst hb1
      rw [if_pos rfl]
      rw [show done.length + 1 = (done ++ [Token.BeginLoop]).length from by simp]
      refine fmpGo_ok_of_balanced rest (done ++ [Token.BeginLoop])
        ((done.length, Token.BeginLoop) :: st) mp ?_ hpre htot
      rw [count_open_snoc, count_close_snoc]
      simp only [List.length_cons]
      simp
      omega
    · rw [if_neg hb1]
      by_cases hb2 : b = Token.EndLoop
      · subst hb2
        rw [if_pos rfl]
        cases st with
        | nil =>
          exfalso
          have hk := hpre (done.length + 1) (by simp)
          rw [← happ, take_append_cons] at hk
          rw [count_open_snoc, count_close_snoc] at hk
          simp only [List.length_nil] at hbal
          simp at hk
          omega
        | cons p st =>
          obtain ⟨a, t⟩ := p
          rw [show done.length + 1 = (done ++ [Token.EndLoop]).length from by simp]
          refine fmpGo_ok_of_balanced rest (done ++ [Token.EndLoop]) st
            ((a, done.length) :: (done.length, a) :: mp) ?_ hpre htot
          rw [count_open_snoc, count_close_snoc]
          simp only [List.length_cons] at hbal
          simp
          omega
      · rw [if_neg hb2]
        rw [show done.length + 1 = (done ++ [b]).length from by simp]
        refine fmpGo_ok_of_balanced rest (done ++ [b]) st mp ?_ hpre htot
        rw [count_open_snoc, count_close_snoc, if_neg hb1, if_neg hb2]
        omega

/-- A prefix that closes more loops than it opens makes the scan fail with
the missing-open error. -/
theorem fmpGo_error_close : ∀ (rest done : List Token) (st : List (Nat × Token)) (mp : List (Nat × Nat)),
    count_open done = count_close done + st.length →
    (∀ k, k ≤ done.length → count_close (done.take k) ≤ count_open (done.take k)) →
    (∃ k, k ≤ (done ++ rest).length ∧
      count_open ((done ++ rest).take k) < count_close ((done ++ rest).take k)) →
    fmpGo rest done.length st mp = Except.error "Missing \x27[\x27"
  | [], done, st, mp, hbal, hgood, hbad => by
    exfalso
    obtain ⟨k, hk, hlt⟩ := hbad
    simp only [List.append_nil] at hk hlt
    exact absurd (hgood k hk) (by omega)
  | b :: rest, done, st, mp, hbal, hgood, hbad => by
    have happ : done ++ b :: rest = (done ++ [b]) ++ rest := by simp
    rw [happ] at hbad
    have hgdone : count_close done ≤ count_open done := by
      have := hgood done.length (Nat.le_refl _)
      rwa [List.take_length] at this
    unfold fmpGo
    by_cases hb1 : b = Token.BeginLoop
    · subst hb1
      rw [if_pos rfl]
      rw [show done.length + 1 = (done ++ [Token.BeginLoop]).length from by simp]
      refine fmpGo_error_close rest (done ++ [Token.BeginLoop])
        ((done.length, Token.BeginLoop) :: st) mp ?_ ?_ hbad
      · rw [count_open_snoc, count_close_snoc]
        simp only [List.length_cons]
        simp
        omega
      · intro k hk
        simp only [List.length_append, List.length_cons, List.length_nil] at hk
        rcases Nat.lt_or_ge k (done.length + 1) with hk2 | hk2
        · rw [List.take_append_of_le_length (by omega)]
          exact hgood k (by omega)
        · have hkd : k = done.length + 1 := by omega
          subst hkd
          rw [List.take_of_length_le (by simp)]
          rw [count_open_snoc, count_close_snoc]
          simp
          omega
    · rw [if_neg hb1]
      by_cases hb2 : b = Token.EndLoop
      · subst hb2
        rw [if_pos rfl]
        cases st with
        | nil => rfl
        | cons p st =>
          obtain ⟨a, t⟩ := p
          rw [show done.length + 1 = (done ++ [Token.EndLoop]).length from by simp]
          refine fmpGo_error_close rest (done ++ [Token.EndLoop]) st
            ((a, done.length) :: (done.length, a) :: mp) ?_ ?_ hbad
          · rw [count_open_snoc, count_close_snoc]
            simp only [List.length_cons] at hbal
            simp
            omega
          · intro k hk
            simp only [List.length_append, List.length_cons, List.length_nil] at hk
            rcases Nat.lt_or_ge k (done.length + 1) with hk2 | hk2
            · rw [List.take_append_of_le_length (by omega)]
              exact hgood k (by omega)
            · have hkd : k = done.length + 1 := by omega
              subst hkd
              rw [List.take_of_length_le (by simp)]
              rw [count_open_snoc, count_close_snoc]
              simp only [List.length_cons] at hbal
              simp
              omega
      · rw [if_neg hb2]
        rw [show done.length + 1 = (done ++ [b]).length from by simp]
        refine fmpGo_error_close rest (done ++ [b]) st mp ?_ ?_ hbad
        · rw [count_open_snoc, count_close_snoc, if_neg hb1, if_neg hb2]
          omega
        · intro k hk
          simp only [List.length_append, List.length_cons, List.length_nil] at hk
          rcases Nat.lt_or_ge k (done.length + 1) with hk2 | hk2
          · rw [List.take_append_of_le_length (by omega)]
            exact hgood k (by omega)
          · have hkd : k = done.length + 1 := by omega
            subst hkd
            rw [List.take_of_length_le (by simp)]
            rw [count_open_snoc, count_close_snoc, if_neg hb1, if_neg hb2]
            omega

/-- With every prefix balanced but an excess of loop-opens overall, the
scan fails with the missing-close error. -/
theorem fmpGo_error_open : ∀ (rest done : List Token) (st : List (Nat × Token)) (mp : List (Nat × Nat)),
    count_open done = count_close done + st.length →
    (∀ k, k ≤ (done ++ rest).length →
      count_close ((done ++ rest).take k) ≤ count_open ((done ++ rest).take k)) →
    count_close (done ++ rest) < count_open (done ++ rest) →
    fmpGo rest done.length st mp = Except.error "Missing \x27]\x27"
  | [], done, st, mp, hbal, hpre, htot => by
    simp only [List.append_nil] at htot
    cases st with
    | nil => simp at hbal; omega
    | cons p st => unfold fmpGo; rfl
  | b :: rest, done, st, mp, hbal, hpre, htot => by
    have happ : done ++ b :: rest = (done ++ [b]) ++ rest := by simp
    rw [happ] at hpre htot
    unfold fmpGo
    by_cases hb1 : b = Token.BeginLoop
    · subst hb1
      rw [if_pos rfl]
      rw [show done.length + 1 = (done ++ [Token.BeginLoop]).length from by simp]
      refine fmpGo_error_open rest (done ++ [Token.BeginLoop])
        ((done.length, Token.BeginLoop) :: st) mp ?_ hpre htot
      rw [count_open_snoc, count_close_snoc]
      simp only [List.length_cons]
      simp
      omega
    · rw [if_neg hb1]
      by_cases hb2 : b = Token.EndLoop
      · subst hb2
        rw [if_pos rfl]
        cases st with
        | nil =>
          exfalso
          have hk := hpre (done.length + 1) (by simp)
          rw [← happ, take_append_cons] at hk
          rw [count_open_snoc, count_close_snoc] at hk
          simp only [List.length_nil] at hbal
          simp at hk
          omega
        | cons p st =>
          obtain ⟨a, t⟩ := p
          rw [show done.length + 1 = (done ++ [Token.EndLoop]).length from by simp]
          refine fmpGo_error_open rest (done ++ [Token.EndLoop]) st
            ((a, done.length) :: (done.length, a) :: mp) ?_ hpre htot
          rw [count_open_snoc, count_close_snoc]
          simp only [List.length_cons] at hbal
          simp
          omega
      · rw [if_neg hb2]
        rw [show done.length + 1 = (done ++ [b]).length from by simp]
        refine fmpGo_error_open rest (done ++ [b]) st mp ?_ hpre htot
        rw [count_open_snoc, count_close_snoc, if_neg hb1, if_neg hb2]
        omega

/-- The LIFO match of a loop-open is unique. -/
theorem isLifoMatch_unique (l : List Token) (i j j1 : Nat)
    (h : IsLifoMatch l i j) (h1 : IsLifoMatch l i j1) : j1 = j := by
  obtain ⟨hij, hjl, _, hclose, hcnt, hmin⟩ := h
  obtain ⟨hij1, hjl1, _, hclose1, hcnt1, hmin1⟩ := h1
  by_contra hne
  rcases Nat.lt_or_ge j1 j with hlt | hge
  · exact hmin j1 hij1 hlt hclose1 hcnt1
  · exact hmin1 j hij (by omega) hclose hcnt

/-- List used by the witness of the bracket-map claim. -/
def c2L : List Token := [Token.BeginLoop, Token.EndLoop]

instance instDecBalancedTok (l : List Token) : Decidable (BalancedTok l) := by
  unfold BalancedTok
  infer_instance

/-- C2: for every program with balanced loop brackets, the bracket scan
succeeds and returns a map defined exactly at the loop-instruction
indices, symmetric (map of map of i is i), and pairing every loop-open
with the unique loop-close after it determined by strict LIFO nesting
(its nearest unmatched loop-close to the right). -/
theorem bf_bracket_map_balanced (l : List Token) (hbal : BalancedTok l) :
    ∃ m, find_matching_parens l = Except.ok m ∧
      (∀ i, (m.lookup i).isSome ↔ i < l.length ∧
        (l.getD i Token.IncDataPtr = Token.BeginLoop ∨
         l.getD i Token.IncDataPtr = Token.EndLoop)) ∧
      (∀ i j, m.lookup i = some j → m.lookup j = some i) ∧
      (∀ i j, m.lookup i = some j → l.getD i Token.IncDataPtr = Token.BeginLoop →
        i < j ∧ l.getD j Token.IncDataPtr = Token.EndLoop ∧
        IsLifoMatch l i j ∧ ∀ j1, IsLifoMatch l i j1 → j1 = j) := by
  obtain ⟨hpre, htot⟩ := hbal
  obtain ⟨m, hm⟩ := fmpGo_ok_of_balanced l [] [] []
    (by simp [count_open, count_close])
    (by simpa using hpre) (by simpa using htot)
  have hinv : ScanInv l [] m := by
    have := fmpGo_ok_inv l [] [] [] m scanInv_nil hm
    simpa using this
  refine ⟨m, hm, ?_, hinv.mp_sym, ?_⟩
  · intro i
    constructor
    · intro hi
      exact ⟨hinv.mp_dom_lt i hi, hinv.mp_dom_loop i hi⟩
    · rintro ⟨hil, hloop⟩
      exact hinv.mp_total i hil hloop (List.not_mem_nil i)
  · intro i j hij hopen
    have hlm := hinv.mp_lifo i j hij hopen
    exact ⟨hlm.1, hlm.2.2.2.1, hlm, fun j1 h1 => isLifoMatch_unique l i j j1 hlm h1⟩

theorem bf_bracket_map_balanced_witness :
    BalancedTok c2L ∧
    (∃ m, find_matching_parens c2L = Except.ok m ∧
      (∀ i, (m.lookup i).isSome ↔ i < c2L.length ∧
        (c2L.getD i Token.IncDataPtr = Token.BeginLoop ∨
         c2L.getD i Token.IncDataPtr = Token.EndLoop)) ∧
      (∀ i j, m.lookup i = some j → m.lookup j = some i) ∧
      (∀ i j, m.lookup i = some j → c2L.getD i Token.IncDataPtr = Token.BeginLoop →
        i < j ∧ c2L.getD j Token.IncDataPtr = Token.EndLoop ∧
        IsLifoMatch c2L i j ∧ ∀ j1, IsLifoMatch c2L i j1 → j1 = j)) :=
  ⟨by decide, bf_bracket_map_balanced c2L (by decide)⟩

/-- Count of a given byte value in a byte list. -/
def countB (c : Nat) (l : List Nat) : Nat := l.countP (fun b => decide (b = c))

/-- Open-token count of the tokenization equals the open-bracket byte
count of the input. -/
theorem parse_count_open : ∀ l : List Nat, count_open (parse_program l) = countB 91 l
  | [] => rfl
  | b :: l => by
    have ih := parse_count_open l
    simp only [parse_program, List.filterMap_cons] at ih ⊢
    rcases htok : tokOf b with _ | t
    · have hb : ¬ b = 91 := by
        intro hh; subst hh; simp [tokOf] at htok
      simp [countB, List.countP_cons, hb, ih]
    · unfold tokOf at htok
      split_ifs at htok with h1 h2 h3 h4 h5 h6 h7 h8
      all_goals
        injection htok with ht
        subst ht
        subst_vars
        simp_all [count_open, countB, List.countP_cons]

/-- Close-token count of the tokenization equals the close-bracket byte
count of the input. -/
theorem parse_count_close : ∀ l : List Nat, count_close (parse_program l) = countB 93 l
  | [] => rfl
  | b :: l => by
    have ih := parse_count_close l
    simp only [parse_program, List.filterMap_cons] at ih ⊢
    rcases htok : tokOf b with _ | t
    · have hb : ¬ b = 93 := by
        intro hh; subst hh; simp [tokOf] at htok
      simp [countB, List.countP_cons, hb, ih]
    · unfold tokOf at htok
      split_ifs at htok with h1 h2 h3 h4 h5 h6 h7 h8
      all_goals
        injection htok with ht
        subst ht
        subst_vars
        simp_all [count_close, countB, List.countP_cons]

/-- The tokenization of a byte prefix is a prefix of the tokenization. -/
theorem parse_take (l : List Nat) (j : Nat) :
    ∃ k, k ≤ (parse_program l).length ∧
      (parse_program l).take k = parse_program (l.take j) := by
  have hsplit : parse_program l = parse_program (l.take j) ++ parse_program (l.drop j) := by
    unfold parse_program
    rw [← List.filterMap_append, List.take_append_drop]
  refine ⟨(parse_program (l.take j)).length, ?_, ?_⟩
  · rw [hsplit]
    simp
  · rw [hsplit, List.take_left]

/-- Every prefix of the tokenization is the tokenization of some byte
prefix. -/
theorem parse_take_exists : ∀ (l : List Nat) (k : Nat), k ≤ (parse_program l).length →
    ∃ j, j ≤ l.length ∧ parse_program (l.take j) = (parse_program l).take k
  | [], k, _ => ⟨0, by simp, by simp [parse_program]⟩
  | b :: l, k, hk => by
    rcases htok : tokOf b with _ | t
    · have hbl : parse_program (b :: l) = parse_program l := by
        simp [parse_program, List.filterMap_cons, htok]
      rw [hbl] at hk ⊢
      obtain ⟨j, hj, hpj⟩ := parse_take_exists l k hk
      refine ⟨j + 1, by simpa using hj, ?_⟩
      rw [List.take_succ_cons]
      rw [show parse_program (b :: l.take j) = parse_program (l.take j) from by
        simp [parse_program, List.filterMap_cons, htok]]
      exact hpj
    · have hbl : parse_program (b :: l) = t :: parse_program l := by
        simp [parse_program, List.filterMap_cons, htok]
      rw [hbl] at hk ⊢
      cases k with
      | zero => exact ⟨0, by simp, by simp [parse_program]⟩
      | succ k =>
        simp only [List.length_cons, Nat.succ_le_succ_iff] at hk
        obtain ⟨j, hj, hpj⟩ := parse_take_exists l k hk
        refine ⟨j + 1, by simpa using hj, ?_⟩
        rw [List.take_succ_cons, List.take_succ_cons]
        rw [show parse_program (b :: l.take j) = t :: parse_program (l.take j) from by
          simp [parse_program, List.filterMap_cons, htok]]
        rw [hpj]

/-- A close-heavy prefix exists on the byte level iff one exists on the
token level. -/
theorem byteBad_iff_tokBad (input : List Nat) :
    (∃ k, k ≤ input.length ∧ countB 91 (input.take k) < countB 93 (input.take k)) ↔
    (∃ k, k ≤ (parse_program input).length ∧
      count_open ((parse_program input).take k) <
      count_close ((parse_program input).take k)) := by
  constructor
  · rintro ⟨j, _, hlt⟩
    obtain ⟨k, hk, hpk⟩ := parse_take input j
    refine ⟨k, hk, ?_⟩
    rw [hpk, parse_count_open, parse_count_close]
    exact hlt
  · rintro ⟨k, hk, hlt⟩
    obtain ⟨j, hj, hpj⟩ := parse_take_exists input k hk
    refine ⟨j, hj, ?_⟩
    rw [← parse_count_open, ← parse_count_close, hpj]
    exact hlt

/-- Amended C3: construction fails exactly on unbalanced brackets, with
the missing-open error taking precedence: an input with a prefix closing
more loops than it opens fails with the missing-open error; an input
without such a prefix but with an excess of loop-opens overall fails with
the missing-close error; any other input constructs successfully — in
particular unrecognized bytes never cause failure. -/
theorem bf_new_error_characterization (input : List Nat) :
    ((∃ k, k ≤ input.length ∧ countB 91 (input.take k) < countB 93 (input.take k)) →
      BfInterpreter.new input = Except.error "Missing \x27[\x27") ∧
    ((¬ ∃ k, k ≤ input.length ∧ countB 91 (input.take k) < countB 93 (input.take k)) →
      countB 93 input < countB 91 input →
      BfInterpreter.new input = Except.error "Missing \x27]\x27") ∧
    ((¬ ∃ k, k ≤ input.length ∧ countB 91 (input.take k) < countB 93 (input.take k)) →
      countB 91 input = countB 93 input →
      ∃ e, BfInterpreter.new input = Except.ok e) := by
  refine ⟨?_, ?_, ?_⟩
  · intro hbad
    have htokbad := (byteBad_iff_tokBad input).mp hbad
    have herr := fmpGo_error_close (parse_program input) [] [] []
      (by simp [count_open, count_close])
      (by intro k hk; simp [count_open, count_close])
      (by simpa using htokbad)
    simp only [List.length_nil] at herr
    simp only [BfInterpreter.new, find_matching_parens]
    rw [herr]
  · intro hgood hcnt
    have htokgood : ∀ k, k ≤ (parse_program input).length →
        count_close ((parse_program input).take k) ≤
        count_open ((parse_program input).take k) := by
      intro k hk
      by_contra hcon
      exact hgood ((byteBad_iff_tokBad input).mpr ⟨k, hk, by omega⟩)
    have herr := fmpGo_error_open (parse_program input) [] [] []
      (by simp [count_open, count_close])
      (by simpa using htokgood)
      (by simp only [List.nil_append]
          rw [parse_count_open, parse_count_close]
          omega)
    simp only [List.length_nil] at herr
    simp only [BfInterpreter.new, find_matching_parens]
    rw [herr]
  · intro hgood hcnt
    have htokgood : ∀ k, k ≤ (parse_program input).length →
        count_close ((parse_program input).take k) ≤
        count_open ((parse_program input).take k) := by
      intro k hk
      by_contra hcon
      exact hgood ((byteBad_iff_tokBad input).mpr ⟨k, hk, by omega⟩)
    obtain ⟨m, hok⟩ := fmpGo_ok_of_balanced (parse_program input) [] [] []
      (by simp [count_open, count_close])
      (by simpa using htokgood)
      (by simp only [List.nil_append]
          rw [parse_count_open, parse_count_close]
          omega)
    simp only [List.length_nil] at hok
    simp only [BfInterpreter.new, find_matching_parens]
    rw [hok]
    exact ⟨_, rfl⟩

theorem bf_new_error_characterization_witness :
    BfInterpreter.new [93] = Except.error "Missing \x27[\x27" ∧
    BfInterpreter.new [91] = Except.error "Missing \x27]\x27" ∧
    (∃ e, BfInterpreter.new ([] : List Nat) = Except.ok e) := by
  refine ⟨?_, ?_, ?_⟩
  · exact (bf_new_error_characterization [93]).1 ⟨1, by decide, by decide⟩
  · refine (bf_new_error_characterization [91]).2.1 ?_ (by decide)
    rintro ⟨k, hk, hlt⟩
    simp only [List.length_cons, List.length_nil] at hk
    have hcase : k = 0 ∨ k = 1 := by omega
    rcases hcase with rfl | rfl <;> simp [countB] at hlt
  · refine (bf_new_error_characterization []).2.2 ?_ (by decide)
    rintro ⟨k, hk, hlt⟩
    simp only [List.length_nil, Nat.le_zero] at hk
    subst hk
    simp [countB] at hlt

/-- Predicate used by the claim text: the input contains a dangling
(unclosed) loop-open — an open-bracket byte whose suffix opens more loops
than it closes. -/
def HasDanglingOpen (input : List Nat) : Prop :=
  ∃ k, k < input.length ∧ input.getD k 0 = 91 ∧
    countB 93 (input.drop k) < countB 91 (input.drop k)

/-- Counterexample to C3 as stated: the input close-open (bytes 93, 91)
has a dangling loop-open, yet construction fails with the missing-open
error (the spec name UnmatchedClose), not with the missing-close error
(UnmatchedOpen) that the claim assigns to every input with a dangling
open. -/
theorem bf_new_error_precedence_cex :
    HasDanglingOpen [93, 91] ∧
    BfInterpreter.new [93, 91] ≠ Except.error "Missing \x27]\x27" ∧
    BfInterpreter.new [93, 91] = Except.error "Missing \x27[\x27" := by
  refine ⟨⟨1, by decide, by decide, by decide⟩, by decide, by decide⟩

/-- Reachability from an engine by successful `step` calls and `set_input`
calls, mirroring the driver contract. -/
inductive Reaches (e : BfInterpreter) : BfInterpreter → Prop where
  | refl : Reaches e e
  | step (s s2 : BfInterpreter) (r : Ret) :
      Reaches e s → s.step = (Except.ok r, s2) → Reaches e s2
  | input (s : BfInterpreter) (b1 : Nat) :
      Reaches e s → Reaches e (s.set_input b1)

/-- Run-time invariant maintained by every reachable engine state. -/
def EngineInv (s : BfInterpreter) : Prop :=
  s.data_ptr < 30000 ∧ s.pc ≤ s.program.length ∧ s.cells.length = 30000 ∧
  (∀ i j, s.matching_parens.lookup i = some j → j < s.program.length) ∧
  (∀ i, i < s.program.length →
    (s.program.getD i Token.IncDataPtr = Token.BeginLoop ∨
     s.program.getD i Token.IncDataPtr = Token.EndLoop) →
    (s.matching_parens.lookup i).isSome)

/-- Constructor form of the run-time invariant. -/
theorem engineInv_mk (pc dp : Nat) (prog : List Token) (cells : List Nat)
    (mp : List (Nat × Nat))
    (h1 : dp < 30000) (h2 : pc ≤ prog.length) (h3 : cells.length = 30000)
    (h4 : ∀ i j, mp.lookup i = some j → j < prog.length)
    (h5 : ∀ i, i < prog.length →
      (prog.getD i Token.IncDataPtr = Token.BeginLoop ∨
       prog.getD i Token.IncDataPtr = Token.EndLoop) →
      (mp.lookup i).isSome) :
    EngineInv ⟨pc, dp, prog, cells, mp⟩ :=
  ⟨h1, h2, h3, h4, h5⟩

/-- A successfully constructed engine starts at zeroed counters with a
zeroed 30000-cell tape and satisfies the run-time invariant. -/
theorem engineInv_new (input : List Nat) (e : BfInterpreter)
    (h : BfInterpreter.new input = Except.ok e) :
    e.pc = 0 ∧ e.data_ptr = 0 ∧ e.cells = List.replicate 30000 0 ∧
    e.program = parse_program input ∧ EngineInv e := by
  simp only [BfInterpreter.new, find_matching_parens] at h
  cases hfm : fmpGo (parse_program input) 0 [] [] with
  | error er => rw [hfm] at h; simp at h
  | ok m =>
    rw [hfm] at h
    injection h with h
    subst h
    have hinv : ScanInv (parse_program input) [] m := by
      have := fmpGo_ok_inv (parse_program input) [] [] [] m scanInv_nil hfm
      simpa using this
    refine ⟨rfl, rfl, rfl, rfl,
      engineInv_mk 0 0 (parse_program input) (List.replicate 30000 0) m
        (by omega) (Nat.zero_le _) (List.length_replicate 30000 0) ?_ ?_⟩
    · intro i j hij
      have hji := hinv.mp_sym i j hij
      exact hinv.mp_dom_lt j (by rw [hji]; rfl)
    · intro i hi hloop
      exact hinv.mp_total i hi hloop (List.not_mem_nil i)

/-- A successful step preserves the run-time invariant. -/
theorem engineInv_step (s s2 : BfInterpreter) (r : Ret)
    (hinv : EngineInv s) (h : s.step = (Except.ok r, s2)) : EngineInv s2 := by
  obtain ⟨hdp, hpc, hlen, hmapval, hmaptot⟩ := hinv
  by_cases h1 : s.program.length ≤ s.pc
  · rw [step_eq_finished s h1] at h
    injection h with hr hs
    subst hs
    exact ⟨hdp, hpc, hlen, hmapval, hmaptot⟩

  · have hpclt : s.pc < s.program.length := Nat.lt_of_not_le h1
    cases htok : s.program.getD s.pc Token.IncDataPtr
    · rw [step_eq_incPtr s hpclt htok] at h
      by_cases hc : s.data_ptr = s.cells.length - 1
      · rw [if_pos hc] at h
        injection h with hr hs
        simp at hr
      · rw [if_neg hc] at h
        injection h with hr hs
        subst hs
        exact engineInv_mk _ _ _ _ _ (by omega) (by omega) hlen hmapval hmaptot
    · rw [step_eq_decPtr s hpclt htok] at h
      by_cases hc : s.data_ptr = 0
      · rw [if_pos hc] at h
        injection h with hr hs
        simp at hr
      · rw [if_neg hc] at h
        injection h with hr hs
        subst hs
        exact engineInv_mk _ _ _ _ _ (by omega) (by omega) hlen hmapval hmaptot
    · rw [step_eq_incByte s hpclt htok] at h
      injection h with hr hs
      subst hs
      exact engineInv_mk _ _ _ _ _ hdp (by omega) (by simpa using hlen) hmapval hmaptot
    · rw [step_eq_decByte s hpclt htok] at h
      injection h with hr hs
      subst hs
      exact engineInv_mk _ _ _ _ _ hdp (by omega) (by simpa using hlen) hmapval hmaptot
    · rw [step_eq_write s hpclt htok] at h
      injection h with hr hs
      subst hs
      exact engineInv_mk _ _ _ _ _ hdp (by omega) hlen hmapval hmaptot
    · rw [step_eq_read s hpclt htok] at h
      injection h with hr hs
      subst hs
      exact engineInv_mk _ _ _ _ _ hdp (by omega) hlen hmapval hmaptot
    · rw [step_eq_begin s hpclt htok] at h
      have hsome := hmaptot s.pc hpclt (Or.inl htok)
      obtain ⟨j, hj⟩ := Option.isSome_iff_exists.mp hsome
      have hjlt := hmapval s.pc j hj
      by_cases hc : s.cells.getD s.data_ptr 0 = 0
      · rw [if_pos hc] at h
        injection h with hr hs
        subst hs
        refine engineInv_mk _ _ _ _ _ hdp ?_ hlen hmapval hmaptot
        rw [hj]
        simpa using hjlt
      · rw [if_neg hc] at h
        injection h with hr hs
        subst hs
        exact engineInv_mk _ _ _ _ _ hdp (by omega) hlen hmapval hmaptot
    · rw [step_eq_end s hpclt htok] at h
      have hsome := hmaptot s.pc hpclt (Or.inr htok)
      obtain ⟨j, hj⟩ := Option.isSome_iff_exists.mp hsome
      have hjlt := hmapval s.pc j hj
      by_cases hc : s.cells.getD s.data_ptr 0 ≠ 0
      · rw [if_pos hc] at h
        injection h with hr hs
        subst hs
        refine engineInv_mk _ _ _ _ _ hdp ?_ hlen hmapval hmaptot
        rw [hj]
        simpa using hjlt
      · rw [if_neg hc] at h
        injection h with hr hs
        subst hs
        exact engineInv_mk _ _ _ _ _ hdp (by omega) hlen hmapval hmaptot

/-- Supplying input preserves the run-time invariant. -/
theorem engineInv_set_input (s : BfInterpreter) (b1 : Nat) (hinv : EngineInv s) :
    EngineInv (s.set_input b1) := by
  obtain ⟨hdp, hpc, hlen, hmapval, hmaptot⟩ := hinv
  exact engineInv_mk _ _ _ _ _ hdp hpc (by simpa using hlen) hmapval hmaptot

/-- Engine used by the witness of the invariant claim. -/
def c6E : BfInterpreter :=
  { pc := 0, data_ptr := 0, program := [], cells := List.replicate 30000 0,
    matching_parens := [] }

/-- C6: successful construction establishes pc = 0, dp = 0 and a zeroed
tape of exactly 30000 cells, and every state reachable by successful
step and set_input calls keeps dp < 30000, pc at most the program length
(the one-past-end completion sentinel) and a tape of exactly 30000
cells. -/
theorem bf_engine_invariants (input : List Nat) (e s : BfInterpreter)
    (hnew : BfInterpreter.new input = Except.ok e) (hr : Reaches e s) :
    (e.pc = 0 ∧ e.data_ptr = 0 ∧ e.cells = List.replicate 30000 0) ∧
    (s.data_ptr < 30000 ∧ s.pc ≤ s.program.length ∧ s.cells.length = 30000) := by
  obtain ⟨hpc0, hdp0, hcells0, _, hinv0⟩ := engineInv_new input e hnew
  refine ⟨⟨hpc0, hdp0, hcells0⟩, ?_⟩
  have hinv : EngineInv s := by
    induction hr with
    | refl => exact hinv0
    | step s1 s2 r hr1 hstep ih => exact engineInv_step s1 s2 r ih hstep
    | input s1 b1 hr1 ih => exact engineInv_set_input s1 b1 ih
  exact ⟨hinv.1, hinv.2.1, hinv.2.2.1⟩

theorem bf_engine_invariants_witness :
    BfInterpreter.new [] = Except.ok c6E ∧
    ((c6E.pc = 0 ∧ c6E.data_ptr = 0 ∧ c6E.cells = List.replicate 30000 0) ∧
      (c6E.data_ptr < 30000 ∧ c6E.pc ≤ c6E.program.length ∧ c6E.cells.length = 30000)) :=
  ⟨rfl, bf_engine_invariants [] c6E c6E rfl Reaches.refl⟩

/-- Driver loop modelled on the hello_world test in bf_interpreter.rs:
step repeatedly, collect the Output bytes in order, stop at Finished and
supply no input; `none` on fuel exhaustion or on an error. -/
def runGo : Nat → BfInterpreter → List Nat → Option (List Nat)
  | 0, _, _ => none
  | fuel + 1, s, acc =>
    match s.step with
    | (Except.ok Ret.Finished, _) => some acc
    | (Except.ok (Ret.Output o), s2) => runGo fuel s2 (acc ++ [o])
    | (Except.ok _, s2) => runGo fuel s2 acc
    | (Except.error _, _) => none

/-- Evaluation-friendly variant of `step`, valid on 30000-cell engines:
the move-right bound check compares against the constant 29999 instead of
recomputing cells.length - 1. -/
def stepF (s : BfInterpreter) : Except String Ret × BfInterpreter :=
  if s.program.length ≤ s.pc then
    (Except.ok Ret.Finished, s)
  else
    match s.program.getD s.pc Token.IncDataPtr with
    | Token.IncDataPtr =>
        if s.data_ptr = 29999 then
          (Except.error "Memory overflow", s)
        else
          (Except.ok Ret.Continue, { s with data_ptr := s.data_ptr + 1, pc := s.pc + 1 })
    | Token.DecDataPtr =>
        if s.data_ptr = 0 then
          (Except.error "Memory underflow", s)
        else
          (Except.ok Ret.Continue, { s with data_ptr := s.data_ptr - 1, pc := s.pc + 1 })
    | Token.IncByte =>
        (Except.ok Ret.Continue,
          { s with
              cells := s.cells.set s.data_ptr ((s.cells.getD s.data_ptr 0 + 1) % 256)
              pc := s.pc + 1 })
    | Token.DecByte =>
        (Except.ok Ret.Continue,
          { s with
              cells := s.cells.set s.data_ptr ((s.cells.getD s.data_ptr 0 + 255) % 256)
              pc := s.pc + 1 })
    | Token.WriteByte =>
        (Except.ok (Ret.Output (s.cells.getD s.data_ptr 0)), { s with pc := s.pc + 1 })
    | Token.ReadByte =>
        (Except.ok Ret.Input, { s with pc := s.pc + 1 })
    | Token.BeginLoop =>
        if s.cells.getD s.data_ptr 0 = 0 then
          (Except.ok Ret.Continue, { s with pc := (s.matching_parens.lookup s.pc).getD 0 + 1 })
        else
          (Except.ok Ret.Continue, { s with pc := s.pc + 1 })
    | Token.EndLoop =>
        if s.cells.getD s.data_ptr 0 ≠ 0 then
          (Except.ok Ret.Continue, { s with pc := (s.matching_parens.lookup s.pc).getD 0 + 1 })
        else
          (Except.ok Ret.Continue, { s with pc := s.pc + 1 })

theorem step_eq_stepF (s : BfInterpreter) (h : s.cells.length = 30000) :
    s.step = stepF s := by
  unfold BfInterpreter.step stepF
  rw [h]

theorem step_cells_length (s : BfInterpreter) :
    ((s.step).2).cells.length = s.cells.length := by
  by_cases h1 : s.program.length ≤ s.pc
  · rw [step_eq_finished s h1]
  · have hpclt := Nat.lt_of_not_le h1
    cases htok : s.program.getD s.pc Token.IncDataPtr
    · rw [step_eq_incPtr s hpclt htok]
      by_cases hc : s.data_ptr = s.cells.length - 1
      · rw [if_pos hc]
      · rw [if_neg hc]
    · rw [step_eq_decPtr s hpclt htok]
      by_cases hc : s.data_ptr = 0
      · rw [if_pos hc]
      · rw [if_neg hc]
    · rw [step_eq_incByte s hpclt htok]
      simp
    · rw [step_eq_decByte s hpclt htok]
      simp
    · rw [step_eq_write s hpclt htok]
    · rw [step_eq_read s hpclt htok]
    · rw [step_eq_begin s hpclt htok]
      by_cases hc : s.cells.getD s.data_ptr 0 = 0
      · rw [if_pos hc]
      · rw [if_neg hc]
    · rw [step_eq_end s hpclt htok]
      by_cases hc : s.cells.getD s.data_ptr 0 ≠ 0
      · rw [if_pos hc]
      · rw [if_neg hc]

/-- Driver loop over the evaluation-friendly step. -/
def runGoF : Nat → BfInterpreter → List Nat → Option (List Nat)
  | 0, _, _ => none
  | fuel + 1, s, acc =>
    match stepF s with
    | (Except.ok Ret.Finished, _) => some acc
    | (Except.ok (Ret.Output o), s2) => runGoF fuel s2 (acc ++ [o])
    | (Except.ok _, s2) => runGoF fuel s2 acc
    | (Except.error _, _) => none

theorem runGo_eq_runGoF : ∀ (fuel : Nat) (s : BfInterpreter) (acc : List Nat),
    s.cells.length = 30000 → runGo fuel s acc = runGoF fuel s acc
  | 0, _, _, _ => rfl
  | fuel + 1, s, acc, h => by
    unfold runGo runGoF
    rw [← step_eq_stepF s h]
    have hpres : ((s.step).2).cells.length = 30000 := (step_cells_length s).trans h
    rcases hs : s.step with ⟨r, s2⟩
    rw [hs] at hpres
    cases r with
    | ok rv =>
      cases rv with
      | Input => exact runGo_eq_runGoF fuel s2 acc hpres
      | Output o => exact runGo_eq_runGoF fuel s2 (acc ++ [o]) hpres
      | Continue => exact runGo_eq_runGoF fuel s2 acc hpres
      | Finished => rfl
    | error e => rfl

/-- Full driver modelled on the hello_world test: construct the engine
from the source bytes and run it to completion collecting output. -/
def runNew (input : List Nat) (fuel : Nat) : Option (List Nat) :=
  match BfInterpreter.new input with
  | Except.error _ => none
  | Except.ok e => runGo fuel e []

/-- Full driver over the evaluation-friendly step. -/
def runNewF (input : List Nat) (fuel : Nat) : Option (List Nat) :=
  match BfInterpreter.new input with
  | Except.error _ => none
  | Except.ok e => runGoF fuel e []

theorem runNew_eq_runNewF (input : List Nat) (fuel : Nat) :
    runNew input fuel = runNewF input fuel := by
  unfold runNew runNewF
  cases hnew : BfInterpreter.new input with
  | error e => rfl
  | ok e =>
    obtain ⟨_, _, hcells, _, _⟩ := engineInv_new input e hnew
    exact runGo_eq_runGoF fuel e [] (by rw [hcells]; exact List.length_replicate 30000 0)

/-- Source bytes of the Hello World program of the repository test. -/
def helloProgram : List Nat :=
  ("++++++++[>++++[>++>+++>+++>+<<<<-]>+>+>->>+[<]<-]>>.>---.+++++++..+++.>>.<-.<.+++.------.--------.>>+.>++.".toList).map Char.toNat

/-- Bytes of the text Hello World with a trailing newline. -/
def helloOutput : List Nat := ("Hello World!\n".toList).map Char.toNat

set_option maxRecDepth 100000 in
/-- C5: constructing the engine from the Hello World source succeeds, and
running it to completion with no input produces exactly the bytes of the
text Hello World with a trailing newline, with no error at any step. -/
theorem bf_hello_world_run :
    (∃ e, BfInterpreter.new helloProgram = Except.ok e) ∧
    runNew helloProgram 2000 = some helloOutput := by
  constructor
  · exact ⟨_, rfl⟩
  · rw [runNew_eq_runNewF]
    decide
